import Mathlib

/-!
Verification of the two components of `sleepsheee/database-sys`:

* `src/buffer/lru_k_replacer.cpp` — an LRU-K frame eviction policy
  (`LRUKReplacer`), embedded below as pure functions on `RState`.
* `src/container/hash/extendible_hash_table.cpp` — an extendible hash
  table (`ExtendibleHashTable`), embedded below as pure functions on `HT`.

Modelling conventions:

* `std::hash<int>` is the identity on non-negative `int` in libstdc++;
  keys and values are modelled as `Nat` and the hash is the identity.
* The C++ mask computation `hash & ((1 << d) - 1)` is modelled as
  `% 2 ^ d`, which is the same function on naturals.
* Shared `std::shared_ptr<Bucket>` ownership (several directory slots
  aliasing one bucket) is modelled as an arena: `HT.buckets` is the list
  of all buckets ever allocated and `HT.dir` stores indices into it.
* `std::unordered_map` of the replacer is modelled as an association
  list in insertion order (`operator[]` on a missing key appends a
  value-initialized entry at the end); C++ leaves iteration order
  unspecified, the list fixes one order.
* C++ `throw` is modelled as an error value; every throw in the source
  happens before any mutation, so the paired state is the prior state.
* `std::queue::pop()` on an empty queue (reachable only with `k = 0`)
  is undefined behaviour in C++; it is modelled as `List.tail [] = []`.
-/

/-- One tracked frame of `LRUKReplacer` (the mapped type of `hash_`).
Modelled from the spec: the member declarations live in the header,
which is not part of the sources; per the spec a frame holds a bounded
oldest-first list of access timestamps and an evictable flag, and a
frame implicitly created by `operator[]` is value-initialized, so its
flag starts `false` (frames must be explicitly marked evictable). -/
structure FrameEntry where
  time : List Nat
  evictable : Bool
deriving DecidableEq, Inhabited

/-- The whole `LRUKReplacer` state: capacity `replacer_size_`, history
depth `k_`, the frame map `hash_`, the evictable count `curr_size_` and
the logical clock `current_timestamp_`. -/
structure RState where
  replacerSize : Nat
  k : Nat
  frames : List (Nat × FrameEntry)
  currSize : Nat
  timestamp : Nat
deriving DecidableEq, Inhabited

/-- `LRUKReplacer::LRUKReplacer(num_frames, k)`.  The counters start at
zero (header member initializers; modelled from the spec's fresh,
empty replacer with no tracked frames). -/
def mkReplacer (numFrames k : Nat) : RState :=
  { replacerSize := numFrames, k := k, frames := [], currSize := 0, timestamp := 0 }

/-- First-match lookup in the frame map (`hash_.count` / read access). -/
def lookupFrame (fid : Nat) : List (Nat × FrameEntry) → Option FrameEntry
  | [] => none
  | (g, e) :: t => if g = fid then some e else lookupFrame fid t

/-- `hash_[fid]` read: the stored entry, or a value-initialized one. -/
def getFrame (s : RState) (fid : Nat) : FrameEntry :=
  (lookupFrame fid s.frames).getD { time := [], evictable := false }

/-- `hash_[fid] = e` write: replace the unique entry for `fid`, or
append a fresh one (the `operator[]` insertion). -/
def setFrame (fid : Nat) (e : FrameEntry) : List (Nat × FrameEntry) → List (Nat × FrameEntry)
  | [] => [(fid, e)]
  | (g, e0) :: t => if g = fid then (fid, e) :: t else (g, e0) :: setFrame fid e t

/-- `hash_.erase(fid)`. -/
def eraseFrame (fid : Nat) : List (Nat × FrameEntry) → List (Nat × FrameEntry)
  | [] => []
  | (g, e) :: t => if g = fid then t else (g, e) :: eraseFrame fid t

/-- `LRUKReplacer::CompareFrame(f1, f2)` — `true` means evict `f1`
rather than `f2`: a frame with fewer than `k` recorded accesses beats a
frame with `k` of them; otherwise the smaller oldest retained timestamp
(`time_.front()`) wins. -/
def compareFrame (s : RState) (f1 f2 : Nat) : Bool :=
  if (getFrame s f1).time.length < s.k ∧ (getFrame s f2).time.length = s.k then
    true
  else if (getFrame s f1).time.length = s.k ∧ (getFrame s f2).time.length < s.k then
    false
  else
    decide ((getFrame s f1).time.headD 0 < (getFrame s f2).time.headD 0)

/-- One step of the victim scan in `LRUKReplacer::Evict`: an evictable
frame replaces the current candidate when `CompareFrame` prefers it. -/
def scanStep (s : RState) (acc : Option Nat) (p : Nat × FrameEntry) : Option Nat :=
  if p.2.evictable then
    match acc with
    | none => some p.1
    | some cur => if compareFrame s p.1 cur then some p.1 else some cur
  else acc

/-- The scan loop of `LRUKReplacer::Evict` (`*frame_id == -1` is the
`none` accumulator). -/
def scanVictim (s : RState) : Option Nat :=
  s.frames.foldl (scanStep s) none

/-- `LRUKReplacer::RecordAccess(fid)`.  The source rejects only
`frame_id > replacer_size_` (strict); otherwise it pops the oldest
timestamp once the history holds `k` entries, pushes the current clock
value and post-increments the clock.  The first component is the thrown
message, `none` on success; the second is the state after the call. -/
def recordAccess (fid : Nat) (s : RState) : Option String × RState :=
  if s.replacerSize < fid then
    (some "frame invalid", s)
  else
    let e := getFrame s fid
    let e1 := if e.time.length = s.k then { e with time := e.time.tail } else e
    let e2 := { e1 with time := e1.time ++ [s.timestamp] }
    (none, { s with frames := setFrame fid e2 s.frames, timestamp := s.timestamp + 1 })

/-- `LRUKReplacer::SetEvictable(fid, flag)`: no-op for an untracked
frame, otherwise sets the flag and adjusts `curr_size_` on a
`true → false` or `false → true` transition. -/
def setEvictable (fid : Nat) (flag : Bool) (s : RState) : RState :=
  match lookupFrame fid s.frames with
  | none => s
  | some e =>
    let s1 := { s with frames := setFrame fid { e with evictable := flag } s.frames }
    if e.evictable && !flag then { s1 with currSize := s1.currSize - 1 }
    else if !e.evictable && flag then { s1 with currSize := s1.currSize + 1 }
    else s1

/-- `LRUKReplacer::Remove(fid)`: no-op for an untracked frame, throws
for a tracked non-evictable frame, otherwise erases the frame and
decrements `curr_size_`. -/
def removeFrame (fid : Nat) (s : RState) : Option String × RState :=
  match lookupFrame fid s.frames with
  | none => (none, s)
  | some e =>
    if e.evictable then
      (none, { s with frames := eraseFrame fid s.frames, currSize := s.currSize - 1 })
    else
      (some "remove a non-evivtable frame", s)

/-- `LRUKReplacer::Evict(frame_id*)`: scan for the victim, then remove
it through `Remove`; a `Remove` throw would propagate (`Except.error`).
Returns the chosen frame (`none` when nothing is evictable) and the
state after the call. -/
def evict (s : RState) : Except String (Option Nat × RState) :=
  match scanVictim s with
  | none => Except.ok (none, s)
  | some f =>
    match removeFrame f s with
    | (none, s1) => Except.ok (some f, s1)
    | (some msg, _) => Except.error msg

/-- `LRUKReplacer::Size()`. -/
def lruSize (s : RState) : Nat := s.currSize

/-- Number of tracked frames whose evictable flag is set. -/
def countEvictable : List (Nat × FrameEntry) → Nat
  | [] => 0
  | p :: t => (if p.2.evictable then 1 else 0) + countEvictable t

/-- The §3 replacer invariant: `curr_size_` equals the number of
tracked frames whose evictable flag is true. -/
abbrev sizeInv (s : RState) : Prop := lruSize s = countEvictable s.frames

/-- The evictable flag the replacer currently associates with a frame
id (`false` for an untracked frame). -/
def flagOf (g : Nat) (s : RState) : Bool := (getFrame s g).evictable

/-- A demonstration replacer state used by witnesses: one tracked,
non-evictable frame. -/
def demoReplacer : RState :=
  { replacerSize := 10, k := 2, frames := [(0, { time := [3], evictable := false })],
    currSize := 0, timestamp := 5 }

/-- `ExtendibleHashTable<K,V>::Bucket`: fixed capacity `size_`, local
depth `depth_`, and the entry list `list_`. -/
structure Bucket where
  size : Nat
  depth : Nat
  items : List (Nat × Nat)
deriving DecidableEq, Inhabited

/-- Placeholder bucket used as the `getD` default for out-of-range
arena reads (never reached from a well-formed table). -/
def defaultBucket : Bucket := { size := 0, depth := 0, items := [] }

/-- The `ExtendibleHashTable` state: `global_depth_`, `bucket_size_`,
`num_buckets_`, the bucket arena, and the directory `dir_` of arena
indices (aliasing slots share an index, as the `shared_ptr`s do). -/
structure HT where
  globalDepth : Nat
  bucketSize : Nat
  numBuckets : Nat
  buckets : List Bucket
  dir : List Nat
deriving DecidableEq, Inhabited

/-- `ExtendibleHashTable::ExtendibleHashTable(bucket_size)`: depth 0,
one empty bucket, a one-slot directory.  The source constructor
performs no validation of `bucket_size`. -/
def mkHT (bucketSize : Nat) : HT :=
  { globalDepth := 0, bucketSize := bucketSize, numBuckets := 1,
    buckets := [{ size := bucketSize, depth := 0, items := [] }], dir := [0] }

/-- The constructor viewed as a fallible operation, to state the spec's
`InvalidConfig` claim against it: the source constructor body
(lines 28–31) unconditionally initializes the members and contains no
check or throw, so the embedded constructor always returns `ok`. -/
def extendibleHashTableNew (bucketSize : Nat) : Except String HT :=
  Except.ok (mkHT bucketSize)

/-- `ExtendibleHashTable::IndexOf(key)`: `hash(key) & ((1 << d) - 1)`,
i.e. the low `global_depth_` bits; with the identity hash this is
`key mod 2 ^ d`. -/
def indexOf (k gd : Nat) : Nat := k % 2 ^ gd

/-- The key-equality scan of `Bucket::Find`. -/
def bucketFindList (k : Nat) : List (Nat × Nat) → Option Nat
  | [] => none
  | (k0, v0) :: t => if k = k0 then some v0 else bucketFindList k t

/-- The duplicate-key scan of `Bucket::Insert`. -/
def containsKey (k : Nat) : List (Nat × Nat) → Bool
  | [] => false
  | (k0, _) :: t => k0 == k || containsKey k t

/-- The in-place value overwrite of `Bucket::Insert` (first match). -/
def updateVal (k v : Nat) : List (Nat × Nat) → List (Nat × Nat)
  | [] => []
  | (k0, v0) :: t => if k0 == k then (k0, v) :: t else (k0, v0) :: updateVal k v t

/-- `Bucket::IsFull()`.  Modelled from the spec: the accessor is
declared in the header, which is not part of the sources; the spec
fixes the capacity as `size_` entries, so the bucket is full when the
list holds that many entries. -/
def bucketIsFull (b : Bucket) : Bool := b.items.length == b.size

/-- `Bucket::Insert(key, value)`: overwrite in place if the key exists,
fail if full, otherwise append.  `none` is the `false` return. -/
def bucketInsert (k v : Nat) (b : Bucket) : Option Bucket :=
  if containsKey k b.items then some { b with items := updateVal k v b.items }
  else if bucketIsFull b then none
  else some { b with items := b.items ++ [(k, v)] }

/-- `ExtendibleHashTable::Find(key)`: route through the directory, scan
that bucket. -/
def htFind (k : Nat) (s : HT) : Option Nat :=
  bucketFindList k ((s.buckets.getD (s.dir.getD (indexOf k s.globalDepth) 0) defaultBucket).items)

/-- One entry step of the redistribution loop in
`ExtendibleHashTable::RedistributeBucket`: the accumulator is (entries
kept in the original bucket, the sibling bucket `p`, the directory).
An entry whose low `d` bits differ from `pre_index` is moved into `p`
(erased from the original regardless of whether `p->Insert` accepted
it, exactly as in the source) and the single slot `hash(key) & mask`
is repointed to `p`. -/
def redistStep (d preIndex newBid : Nat) (acc : List (Nat × Nat) × Bucket × List Nat)
    (e : Nat × Nat) : List (Nat × Nat) × Bucket × List Nat :=
  if e.1 % 2 ^ d = preIndex then
    (acc.1 ++ [e], acc.2.1, acc.2.2)
  else
    match bucketInsert e.1 e.2 acc.2.1 with
    | some p2 => (acc.1, p2, acc.2.2.set (e.1 % 2 ^ d) newBid)
    | none => (acc.1, acc.2.1, acc.2.2.set (e.1 % 2 ^ d) newBid)

/-- `ExtendibleHashTable::RedistributeBucket(bucket)`: increment the
local depth, allocate the sibling with capacity `bucket_size_`, compute
`pre_index` from the first stored entry (`none` models the undefined
dereference when the bucket is empty), then run the entry loop.
`num_buckets_` is incremented; the sibling gets the next arena index. -/
def redistributeBucket (s : HT) (bid : Nat) : Option HT :=
  match (s.buckets.getD bid defaultBucket).items.head? with
  | none => none
  | some e0 =>
    let b := s.buckets.getD bid defaultBucket
    let d := b.depth + 1
    let preIndex := e0.1 % 2 ^ b.depth
    let r := b.items.foldl (redistStep d preIndex s.buckets.length)
      ([], { size := s.bucketSize, depth := d, items := [] }, s.dir)
    some { s with
      numBuckets := s.numBuckets + 1,
      buckets := (s.buckets.set bid { b with depth := d, items := r.1 }) ++ [r.2.1],
      dir := r.2.2 }

/-- The directory-doubling branch of `ExtendibleHashTable::Insert`:
`global_depth_++` and every existing slot's bucket reference is
duplicated into the upper half. -/
def doubleDir (s : HT) : HT :=
  { s with globalDepth := s.globalDepth + 1, dir := s.dir ++ s.dir }

/-- The retry loop of `ExtendibleHashTable::Insert(key, value)`, with
explicit fuel: `ok none` means the fuel ran out with the loop still
running, `ok (some s)` is normal termination with final state `s`, and
`error` marks the undefined empty-bucket dereference inside
`RedistributeBucket`.  A full bucket at local depth < global depth is
redistributed, at local depth = global depth the directory doubles. -/
def insertFuel : Nat → HT → Nat → Nat → Except String (Option HT)
  | 0, _, _, _ => Except.ok none
  | fuel + 1, s, k, v =>
    match bucketInsert k v (s.buckets.getD (s.dir.getD (indexOf k s.globalDepth) 0) defaultBucket) with
    | some b2 =>
      Except.ok (some { s with buckets := s.buckets.set (s.dir.getD (indexOf k s.globalDepth) 0) b2 })
    | none =>
      if (s.buckets.getD (s.dir.getD (indexOf k s.globalDepth) 0) defaultBucket).depth = s.globalDepth then
        insertFuel fuel (doubleDir s) k v
      else
        match redistributeBucket s (s.dir.getD (indexOf k s.globalDepth) 0) with
        | some s2 => insertFuel fuel s2 k v
        | none => Except.error "split empty bucket"

/-- Structural well-formedness of a table: the directory is nonempty
in effect (there is at least one bucket) and every slot references an
allocated bucket. -/
abbrev WFht (s : HT) : Prop :=
  0 < s.buckets.length ∧ ∀ e ∈ s.dir, e < s.buckets.length

/-- Every allocated bucket has the configured capacity. -/
abbrev uniformBuckets (s : HT) : Prop :=
  ∀ b ∈ s.buckets, b.size = s.bucketSize

/-- The spec's slot-aliasing invariant, as a decidable check: any two
directory slots referencing the same bucket agree on the low `d` bits
of their indices, where `d` is that bucket's local depth. -/
def dirAliasInvB (s : HT) : Bool :=
  (List.range s.dir.length).all fun i =>
    (List.range s.dir.length).all fun j =>
      decide (s.dir.getD i 0 = s.dir.getD j 0 →
        i % 2 ^ (s.buckets.getD (s.dir.getD i 0) defaultBucket).depth
          = j % 2 ^ (s.buckets.getD (s.dir.getD i 0) defaultBucket).depth)

/-- The table reached by `new(2); insert(0,0); insert(4,4); insert(2,2)`
(identity hash), extracted from the insert loop; `none` would mean one
of the inserts failed to terminate within the given fuel. -/
def c1State : Option HT :=
  match insertFuel 1 (mkHT 2) 0 0 with
  | Except.ok (some s1) =>
    match insertFuel 1 s1 4 4 with
    | Except.ok (some s2) =>
      match insertFuel 10 s2 2 2 with
      | Except.ok (some s3) => some s3
      | _ => none
    | _ => none
  | _ => none

/-- The table reached by `new(2); insert(1,10); insert(2,20); insert(3,30)`
(the spec's concrete `bucket_size = 2` scenario). -/
def c2State : Option HT :=
  match insertFuel 1 (mkHT 2) 1 10 with
  | Except.ok (some s1) =>
    match insertFuel 1 s1 2 20 with
    | Except.ok (some s2) =>
      match insertFuel 5 s2 3 30 with
      | Except.ok (some s3) => some s3
      | _ => none
    | _ => none
  | _ => none

/-- The table reached by `new(1); insert(0,0)`: a single full bucket
holding key 0 at depth 0. -/
def ht8 : HT :=
  { globalDepth := 0, bucketSize := 1, numBuckets := 1,
    buckets := [{ size := 1, depth := 0, items := [(0, 0)] }], dir := [0] }

/-- A one-entry table used by the round-trip witness. -/
def demoHT : HT :=
  { globalDepth := 0, bucketSize := 3, numBuckets := 1,
    buckets := [{ size := 3, depth := 0, items := [(7, 9)] }], dir := [0] }

/-- Invariant of the non-terminating run of `Insert(2, ·)` on `ht8`:
bucket capacity is 1, bucket 0 holds exactly the entry `(0, 0)` at some
local depth, and every directory slot references bucket 0.  Each loop
iteration preserves this, so the bucket stays full for key 2 forever. -/
abbrev badP (s : HT) : Prop :=
  s.bucketSize = 1 ∧
  (∃ d, s.buckets.getD 0 defaultBucket = { size := 1, depth := d, items := [(0, 0)] }) ∧
  ∀ i, s.dir.getD i 0 = 0

/-- The comparison class `CompareFrame` distinguishes: 0 for a frame
with fewer than `k` recorded accesses (infinite backward k-distance),
1 for a frame with `k` of them. -/
def frameClass (kk : Nat) (e : FrameEntry) : Nat :=
  if e.time.length < kk then 0 else 1

/-- Strict eviction-priority order between frame entries: an earlier
class, or the same class and a strictly smaller oldest retained
timestamp (this is what `CompareFrame` computes for histories bounded
by `k`). -/
def keyLt (kk : Nat) (e1 e2 : FrameEntry) : Prop :=
  frameClass kk e1 < frameClass kk e2 ∨
    (frameClass kk e1 = frameClass kk e2 ∧ e1.time.headD 0 < e2.time.headD 0)

/-- Non-strict version of `keyLt`. -/
def keyLe (kk : Nat) (e1 e2 : FrameEntry) : Prop :=
  frameClass kk e1 < frameClass kk e2 ∨
    (frameClass kk e1 = frameClass kk e2 ∧ e1.time.headD 0 ≤ e2.time.headD 0)

/-! ### List helper lemmas -/

theorem getD_of_ge {α} (d : α) : ∀ (l : List α) (i : Nat), l.length ≤ i → l.getD i d = d
  | [], _, _ => rfl
  | _ :: t, i + 1, h => getD_of_ge d t i (Nat.le_of_succ_le_succ h)

theorem getD_mem {α} (d : α) : ∀ (l : List α) (i : Nat), i < l.length → l.getD i d ∈ l
  | a :: _, 0, _ => List.mem_cons_self a _
  | _ :: t, i + 1, h => List.mem_cons_of_mem _ (getD_mem d t i (Nat.lt_of_succ_lt_succ h))

theorem getD_set_self {α} (d x : α) :
    ∀ (l : List α) (j : Nat), j < l.length → (l.set j x).getD j d = x
  | _ :: _, 0, _ => rfl
  | _ :: t, j + 1, h => getD_set_self d x t j (Nat.lt_of_succ_lt_succ h)

theorem getD_append_all {α} (d z : α) :
    ∀ (l1 l2 : List α), (∀ i, l1.getD i d = z) → (∀ i, l2.getD i d = z) →
      ∀ i, (l1 ++ l2).getD i d = z
  | [], _, _, h2, i => h2 i
  | a :: t, l2, h1, h2, 0 => h1 0
  | a :: t, l2, h1, h2, i + 1 => getD_append_all d z t l2 (fun j => h1 (j + 1)) h2 i

/-! ### Claim C4 — constructor validation.
The claim says `bucket_size = 0` is rejected with `InvalidConfig`; the
source constructor has no validation at all. -/

/-- C4 counterexample: constructing with `bucket_size = 0` is not
rejected — the embedded constructor returns `ok` on input 0, directly
contradicting the claimed `InvalidConfig` failure. -/
theorem construct_zero_not_rejected : extendibleHashTableNew 0 = Except.ok (mkHT 0) := rfl

/-- C4 amended: the constructor performs no validation; construction
succeeds for every `bucket_size` (including 0), yielding global depth
0 and a single empty bucket behind a one-slot directory. -/
theorem construct_always_succeeds :
    ∀ bs, extendibleHashTableNew bs = Except.ok (mkHT bs) ∧
      (mkHT bs).globalDepth = 0 ∧ (mkHT bs).dir = [0] ∧
      (mkHT bs).buckets = [{ size := bs, depth := 0, items := [] }] :=
  fun _ => ⟨rfl, rfl, rfl, rfl⟩

/-! ### Claim C5 — `RecordAccess` range check.
The claim says every `frame_id ≥ capacity` fails; the source tests
`frame_id > replacer_size_`, so `frame_id = capacity` is accepted. -/

/-- C5: against the claim, the boundary frame id equal to the capacity
is accepted (first conjunct: capacity 1, frame id 1 succeeds), and in
general the source accepts exactly the ids `fid ≤ capacity` instead of
the claimed `fid < capacity`. -/
theorem recordAccess_boundary :
    (recordAccess 1 (mkReplacer 1 2)).1 = none ∧
    ∀ fid s, ((recordAccess fid s).1 = none ↔ fid ≤ s.replacerSize) := by
  refine ⟨rfl, ?_⟩
  intro fid s
  by_cases h : s.replacerSize < fid <;> simp [recordAccess, h] <;> omega

/-! ### Claim C6 — clock advance on failure.
The claim says the logical clock advances by one regardless of
outcome; in the source the throw happens before the increment, so a
failing call leaves the clock unchanged. -/

/-- C6 counterexample: with capacity 1, `record_access(2)` fails, and
the clock afterwards is not the prior clock plus one (it is
unchanged), refuting the claim at this input. -/
theorem clock_frozen_on_error :
    ((recordAccess 2 (mkReplacer 1 2)).1).isSome = true ∧
    ¬ (recordAccess 2 (mkReplacer 1 2)).2.timestamp = (mkReplacer 1 2).timestamp + 1 := by
  exact ⟨rfl, by decide⟩

/-- C6 amended: a successful `record_access` advances the clock by
exactly one, and a call failing the range check leaves the clock
unchanged. -/
theorem clock_advances_only_on_success : ∀ fid s,
    ((recordAccess fid s).1 = none → (recordAccess fid s).2.timestamp = s.timestamp + 1) ∧
    ((recordAccess fid s).1 ≠ none → (recordAccess fid s).2.timestamp = s.timestamp) := by
  intro fid s
  by_cases h : s.replacerSize < fid <;> simp [recordAccess, h]

/-- Witness for C6's amended theorem at a concrete accepted call. -/
theorem clock_advances_witness :
    (recordAccess 0 (mkReplacer 1 2)).2.timestamp = (mkReplacer 1 2).timestamp + 1 :=
  (clock_advances_only_on_success 0 (mkReplacer 1 2)).1 rfl

/-! ### Claim C1 — the slot-aliasing invariant across splits.
The source repoints directory slots from the hashes of the entries
that happen to move (`dir_[index] = p` inside the entry loop), not
over the full index range of the aliasing group (that loop is
commented out in the source).  After `new(2); insert(0,·); insert(4,·);
insert(2,·)` the third insert returns with slots 0 and 1 both
referencing the original bucket of local depth 3 even though
0 mod 8 ≠ 1 mod 8. -/

/-- C1: the aliasing invariant is violated in a state reached by three
terminating inserts: the final state exists (`some`), slots 0 and 1
still share bucket 0, that bucket's local depth is 3, and the
invariant check is `false`. -/
theorem split_leaves_stale_alias :
    c1State.map dirAliasInvB = some false ∧
    c1State.map (fun s =>
      (s.dir.getD 0 0, s.dir.getD 1 0, (s.buckets.getD 0 defaultBucket).depth)) =
      some (0, 0, 3) := by
  exact ⟨by decide, by decide⟩

/-! ### Bucket lemmas -/

theorem bucketFindList_updateVal (k v : Nat) :
    ∀ l : List (Nat × Nat), containsKey k l = true →
      bucketFindList k (updateVal k v l) = some v := by
  intro l
  induction l with
  | nil => intro h; simp [containsKey] at h
  | cons p t ih =>
    obtain ⟨k0, v0⟩ := p
    intro h
    simp [containsKey] at h
    by_cases hk : k0 = k
    · subst hk
      simp [updateVal, bucketFindList]
    · rcases h with h | h
      · exact absurd h hk
      · rw [updateVal]
        simp only [beq_iff_eq, if_neg hk]
        rw [bucketFindList]
        simp only [if_neg (Ne.symm hk)]
        exact ih h

theorem bucketFindList_append (k v : Nat) :
    ∀ l : List (Nat × Nat), containsKey k l = false →
      bucketFindList k (l ++ [(k, v)]) = some v := by
  intro l
  induction l with
  | nil => intro _; simp [bucketFindList]
  | cons p t ih =>
    obtain ⟨k0, v0⟩ := p
    intro h
    simp [containsKey] at h
    obtain ⟨h1, h2⟩ := h
    rw [List.cons_append, bucketFindList]
    simp only [if_neg (Ne.symm h1)]
    exact ih (by simp [h2])

theorem bucketInsert_find (k v : Nat) (b b2 : Bucket) (h : bucketInsert k v b = some b2) :
    bucketFindList k b2.items = some v := by
  unfold bucketInsert at h
  split_ifs at h with h1 h2
  · injection h with h3
    subst h3
    exact bucketFindList_updateVal k v b.items h1
  · injection h with h3
    subst h3
    exact bucketFindList_append k v b.items (Bool.not_eq_true _ ▸ h1)

theorem bucketInsert_size (k v : Nat) (b b2 : Bucket) (h : bucketInsert k v b = some b2) :
    b2.size = b.size := by
  unfold bucketInsert at h
  split_ifs at h
  · injection h with h3; subst h3; rfl
  · injection h with h3; subst h3; rfl

theorem bucketInsert_none (k v : Nat) (b : Bucket) (h : bucketInsert k v b = none) :
    b.items.length = b.size := by
  unfold bucketInsert at h
  split_ifs at h with h1 h2
  · unfold bucketIsFull at h2
    exact beq_iff_eq.mp h2

/-! ### Structural preservation lemmas for the insert loop -/

theorem WFht_getD (s : HT) (h : WFht s) (i : Nat) : s.dir.getD i 0 < s.buckets.length := by
  by_cases hi : i < s.dir.length
  · exact h.2 _ (getD_mem 0 s.dir i hi)
  · rw [getD_of_ge 0 s.dir i (Nat.le_of_not_lt hi)]
    exact h.1

theorem WFht_double (s : HT) (h : WFht s) : WFht (doubleDir s) := by
  refine ⟨h.1, ?_⟩
  intro e he
  rcases List.mem_append.mp he with he | he <;> exact h.2 e he

theorem uniform_double (s : HT) (hu : uniformBuckets s) : uniformBuckets (doubleDir s) := hu

theorem redist_fold_size (d preIndex newBid : Nat) :
    ∀ (l : List (Nat × Nat)) (acc : List (Nat × Nat) × Bucket × List Nat),
      (l.foldl (redistStep d preIndex newBid) acc).2.1.size = acc.2.1.size := by
  intro l
  induction l with
  | nil => intro acc; rfl
  | cons e t ih =>
    intro acc
    rw [List.foldl_cons, ih]
    unfold redistStep
    split_ifs
    · rfl
    · split
      · next p2 hp2 => exact bucketInsert_size _ _ _ _ hp2
      · rfl

theorem redist_fold_dir (d preIndex newBid L : Nat) (hnb : newBid < L) :
    ∀ (l : List (Nat × Nat)) (acc : List (Nat × Nat) × Bucket × List Nat),
      (∀ e ∈ acc.2.2, e < L) →
      ∀ e ∈ (l.foldl (redistStep d preIndex newBid) acc).2.2, e < L := by
  intro l
  induction l with
  | nil => intro acc h; exact h
  | cons e t ih =>
    intro acc h
    rw [List.foldl_cons]
    apply ih
    unfold redistStep
    split_ifs
    · exact h
    · split
      all_goals
        intro x hx
        rcases List.mem_or_eq_of_mem_set hx with hx | hx
        · exact h x hx
        · exact hx ▸ hnb

theorem bucketSize_redist (s : HT) (bid : Nat) (s2 : HT)
    (hr : redistributeBucket s bid = some s2) : s2.bucketSize = s.bucketSize := by
  unfold redistributeBucket at hr
  split at hr
  · exact absurd hr (by simp)
  · injection hr with h3
    subst h3
    rfl

theorem WFht_redist (s : HT) (bid : Nat) (s2 : HT) (h : WFht s)
    (hr : redistributeBucket s bid = some s2) : WFht s2 := by
  unfold redistributeBucket at hr
  split at hr
  · exact absurd hr (by simp)
  · injection hr with h3
    subst h3
    constructor
    · simp
    · intro e he
      simp only [List.length_append, List.length_set, List.length_cons, List.length_nil]
      have hb : ∀ x ∈ s.dir, x < s.buckets.length + 1 :=
        fun x hx => Nat.lt_succ_of_lt (h.2 x hx)
      have := redist_fold_dir _ _ s.buckets.length (s.buckets.length + 1)
        (Nat.lt_succ_self _) _ _ hb e he
      omega

theorem uniform_redist (s : HT) (bid : Nat) (s2 : HT) (hbid : bid < s.buckets.length)
    (hu : uniformBuckets s) (hr : redistributeBucket s bid = some s2) : uniformBuckets s2 := by
  unfold redistributeBucket at hr
  split at hr
  · exact absurd hr (by simp)
  · injection hr with h3
    subst h3
    intro c hc
    rcases List.mem_append.mp hc with hc | hc
    · rcases List.mem_or_eq_of_mem_set hc with hc | hc
      · exact hu c hc
      · subst hc
        exact hu (s.buckets.getD bid defaultBucket) (getD_mem defaultBucket s.buckets bid hbid)
    · rcases List.mem_cons.mp hc with hc | hc
      · subst hc
        exact redist_fold_size _ _ _ _ _
      · simp at hc

theorem insertFuel_ok_find : ∀ (fuel : Nat) (s : HT) (k v : Nat) (s2 : HT),
    WFht s → insertFuel fuel s k v = Except.ok (some s2) → htFind k s2 = some v := by
  intro fuel
  induction fuel with
  | zero =>
    intro s k v s2 _ h
    simp [insertFuel] at h
  | succ n ih =>
    intro s k v s2 hwf h
    simp only [insertFuel] at h
    split at h
    · next b2 heq =>
      injection h with h1
      injection h1 with h2
      subst h2
      unfold htFind
      simp only []
      rw [getD_set_self defaultBucket b2 s.buckets _ (WFht_getD s hwf _)]
      exact bucketInsert_find _ _ _ _ heq
    · split at h
      · exact ih (doubleDir s) k v s2 (WFht_double s hwf) h
      · split at h
        · next s3 heq2 =>
          exact ih s3 k v s2 (WFht_redist s _ s3 hwf heq2) h
        · exact absurd h (by simp)

/-- C10: on any table with `bucket_size ≥ 1` whose buckets all have the
configured capacity and whose directory slots reference allocated
buckets, the insert loop never reaches the empty-bucket dereference of
`RedistributeBucket` (modelled as the `error` result): a split is only
attempted after `Bucket::Insert` failed, which forces the bucket to
hold exactly `size_ ≥ 1` entries, so reading its first entry is
well-defined. -/
theorem insertFuel_no_error : ∀ (fuel : Nat) (s : HT) (k v : Nat),
    1 ≤ s.bucketSize → WFht s → uniformBuckets s →
    ∀ msg, insertFuel fuel s k v ≠ Except.error msg := by
  intro fuel
  induction fuel with
  | zero =>
    intro s k v _ _ _ msg h
    simp [insertFuel] at h
  | succ n ih =>
    intro s k v hbs hwf hu msg h
    simp only [insertFuel] at h
    split at h
    · simp at h
    · next heq0 =>
      split at h
      · exact ih (doubleDir s) k v hbs (WFht_double s hwf) hu msg h
      · split at h
        · next s3 heq2 =>
          refine ih s3 k v ?_ (WFht_redist s _ s3 hwf heq2) ?_ msg h
          · rw [bucketSize_redist s _ s3 heq2]
            exact hbs
          · exact uniform_redist s _ s3 (WFht_getD s hwf _) hu heq2
        · next heq2 =>
          unfold redistributeBucket at heq2
          split at heq2
          · next hhd =>
            have hlen := bucketInsert_none _ _ _ heq0
            have hmem := getD_mem defaultBucket s.buckets _ (WFht_getD s hwf (indexOf k s.globalDepth))
            have hsz := hu _ hmem
            rw [List.head?_eq_none_iff] at hhd
            rw [hhd, hsz, List.length_nil] at hlen
            omega
          · exact absurd heq2 (by simp)

/-- Witness for C10 at a concrete call: inserting into a fresh table of
bucket capacity 2 does not error. -/
theorem insertFuel_no_error_witness :
    insertFuel 1 (mkHT 2) 0 0 ≠ Except.error "split empty bucket" :=
  insertFuel_no_error 1 (mkHT 2) 0 0 (by decide) (by decide) (by decide) "split empty bucket"

/-- C2: insert/find round trip.  First conjunct: on any well-formed
table, whenever the insert loop terminates, `Find` of the inserted key
returns the inserted value.  Second and third conjuncts: the concrete
`bucket_size = 2` scenario — after inserting keys 1, 2, 3 the directory
has doubled to global depth 1, the affected slots have local depth 1,
and all three keys are findable with their values. -/
theorem insert_find_roundtrip :
    (∀ (fuel : Nat) (s : HT) (k v : Nat) (s2 : HT),
      WFht s → insertFuel fuel s k v = Except.ok (some s2) → htFind k s2 = some v) ∧
    c2State.map (fun s => (htFind 1 s, htFind 2 s, htFind 3 s, s.globalDepth)) =
      some (some 10, some 20, some 30, 1) ∧
    c2State.map (fun s =>
      ((s.buckets.getD (s.dir.getD 0 0) defaultBucket).depth,
       (s.buckets.getD (s.dir.getD 1 0) defaultBucket).depth)) = some (1, 1) :=
  ⟨insertFuel_ok_find, by decide, by decide⟩

/-- Witness for C2's universal conjunct at a concrete insert into a
fresh table of capacity 3. -/
theorem insert_find_roundtrip_witness : htFind 7 demoHT = some 9 :=
  insert_find_roundtrip.1 1 (mkHT 3) 7 9 demoHT (by decide) rfl

/-- Every loop iteration of `Insert(2, 2)` from a `badP` state ends in
another `badP` state without inserting: the routed bucket is bucket 0,
it is full with the single entry `(0, 0)`, and a redistribution keeps
that entry in place (its low bits never differ from `pre_index`),
repointing nothing. -/
theorem badP_loop : ∀ (fuel : Nat) (s : HT), badP s →
    insertFuel fuel s 2 2 = Except.ok none := by
  intro fuel
  induction fuel with
  | zero => intro s _; rfl
  | succ n ih =>
    intro s hP
    obtain ⟨hbs, ⟨d, hb0⟩, hdir⟩ := hP
    have hins : bucketInsert 2 2 { size := 1, depth := d, items := [(0, 0)] } = none := by
      simp [bucketInsert, containsKey, bucketIsFull]
    have hsz0 := congrArg Bucket.size hb0
    simp only [insertFuel]
    rw [hdir (indexOf 2 s.globalDepth), hb0, hins]
    by_cases hd : d = s.globalDepth
    · rw [if_pos hd]
      refine ih (doubleDir s) ⟨hbs, ⟨d, hb0⟩, ?_⟩
      exact getD_append_all 0 0 s.dir s.dir hdir hdir
    · rw [if_neg hd]
      have hred : redistributeBucket s 0 = some { s with
          numBuckets := s.numBuckets + 1,
          buckets := (s.buckets.set 0 { size := 1, depth := d + 1, items := [(0, 0)] }) ++
            [{ size := s.bucketSize, depth := d + 1, items := [] }],
          dir := s.dir } := by
        unfold redistributeBucket
        rw [hb0]
        simp [redistStep, Nat.zero_mod]
      rw [hred]
      refine ih _ ⟨hbs, ⟨d + 1, ?_⟩, hdir⟩
      rcases hbq : s.buckets with _ | ⟨a, t⟩
      · rw [hbq] at hsz0
        simp [defaultBucket] at hsz0
      · rfl

/-- C8: `Insert` does not terminate on all valid inputs.  With
`bucket_size = 1`, after `insert(0, 0)` (reaching `ht8`), the call
`insert(2, 2)` runs the grow/split retry loop forever: for every fuel
bound the loop is still running (`ok none`), because the stale
directory left by the entry-driven repointing keeps routing key 2 to
the full bucket holding key 0. -/
theorem insert_nonterminating :
    insertFuel 1 (mkHT 1) 0 0 = Except.ok (some ht8) ∧
    ∀ fuel, insertFuel fuel ht8 2 2 = Except.ok none :=
  ⟨rfl, fun fuel => badP_loop fuel ht8 ⟨rfl, ⟨0, rfl⟩, by intro i; cases i <;> rfl⟩⟩

/-! ### Frame-map lemmas -/

theorem lookupFrame_mem : ∀ (l : List (Nat × FrameEntry)) (fid : Nat) (e : FrameEntry),
    lookupFrame fid l = some e → (fid, e) ∈ l := by
  intro l
  induction l with
  | nil => intro fid e h; simp [lookupFrame] at h
  | cons p t ih =>
    obtain ⟨g, e0⟩ := p
    intro fid e h
    rw [lookupFrame] at h
    split_ifs at h with hg
    · subst hg
      injection h with h1
      subst h1
      exact List.mem_cons_self _ _
    · exact List.mem_cons_of_mem _ (ih fid e h)

theorem lookupFrame_nodup : ∀ (l : List (Nat × FrameEntry)) (fid : Nat) (e : FrameEntry),
    (l.map Prod.fst).Nodup → (fid, e) ∈ l → lookupFrame fid l = some e := by
  intro l
  induction l with
  | nil => intro fid e _ h; simp at h
  | cons p t ih =>
    obtain ⟨g, e0⟩ := p
    intro fid e hnd hmem
    rw [List.map_cons, List.nodup_cons] at hnd
    rw [lookupFrame]
    rcases List.mem_cons.mp hmem with h | h
    · injection h with h1 h2
      subst h1
      subst h2
      simp
    · split_ifs with hg
      · subst hg
        exact absurd (List.mem_map_of_mem Prod.fst h) hnd.1
      · exact ih fid e hnd.2 h

theorem lookup_setFrame_self : ∀ (l : List (Nat × FrameEntry)) (fid : Nat) (e : FrameEntry),
    lookupFrame fid (setFrame fid e l) = some e := by
  intro l
  induction l with
  | nil => intro fid e; simp [setFrame, lookupFrame]
  | cons p t ih =>
    obtain ⟨g, e0⟩ := p
    intro fid e
    rw [setFrame]
    split_ifs with hg
    · rw [lookupFrame]
      simp
    · rw [lookupFrame]
      simp only [if_neg hg]
      exact ih fid e

theorem lookup_setFrame_ne : ∀ (l : List (Nat × FrameEntry)) (fid g : Nat) (e : FrameEntry),
    g ≠ fid → lookupFrame g (setFrame fid e l) = lookupFrame g l := by
  intro l
  induction l with
  | nil =>
    intro fid g e hne
    simp [setFrame, lookupFrame, Ne.symm hne]
  | cons p t ih =>
    obtain ⟨g0, e0⟩ := p
    intro fid g e hne
    rw [setFrame]
    split_ifs with hg
    · subst hg
      rw [lookupFrame, lookupFrame]
      simp only [if_neg (Ne.symm hne)]
    · rw [lookupFrame, lookupFrame]
      split_ifs with hg2
      · rfl
      · exact ih fid g e hne

theorem setFrame_count : ∀ (l : List (Nat × FrameEntry)) (fid : Nat) (e : FrameEntry),
    countEvictable (setFrame fid e l) +
      (if ((lookupFrame fid l).getD { time := [], evictable := false }).evictable then 1 else 0) =
    countEvictable l + (if e.evictable then 1 else 0) := by
  intro l
  induction l with
  | nil => intro fid e; simp [setFrame, lookupFrame, countEvictable]
  | cons p t ih =>
    obtain ⟨g, e0⟩ := p
    intro fid e
    by_cases hg : g = fid
    · subst hg
      simp [setFrame, lookupFrame, countEvictable]
      omega
    · simp only [setFrame, lookupFrame, if_neg hg, countEvictable]
      have := ih fid e
      omega

theorem setFrame_count_pres (l : List (Nat × FrameEntry)) (fid : Nat) (e2 : FrameEntry)
    (he : e2.evictable =
      ((lookupFrame fid l).getD { time := [], evictable := false }).evictable) :
    countEvictable (setFrame fid e2 l) = countEvictable l := by
  have h := setFrame_count l fid e2
  rw [← he] at h
  omega

theorem eraseFrame_count : ∀ (l : List (Nat × FrameEntry)) (fid : Nat) (e : FrameEntry),
    lookupFrame fid l = some e → e.evictable = true →
    countEvictable (eraseFrame fid l) + 1 = countEvictable l := by
  intro l
  induction l with
  | nil => intro fid e h _; simp [lookupFrame] at h
  | cons p t ih =>
    obtain ⟨g, e0⟩ := p
    intro fid e h hev
    rw [lookupFrame] at h
    rw [eraseFrame]
    split_ifs at h ⊢ with hg
    · injection h with h1
      subst h1
      simp only [countEvictable, hev, if_pos]
      omega
    · simp only [countEvictable]
      have := ih fid e h hev
      omega

/-- Characterization of an accepted `RecordAccess`: the updated entry
keeps the frame's previous evictable flag (the default `false` for a
newly created frame), only the history and the clock change. -/
theorem recordAccess_ok_spec (fid : Nat) (s : RState) (h : ¬ s.replacerSize < fid) :
    ∃ e2 : FrameEntry, e2.evictable = (getFrame s fid).evictable ∧
      recordAccess fid s =
        (none, { s with frames := setFrame fid e2 s.frames, timestamp := s.timestamp + 1 }) := by
  unfold recordAccess
  rw [if_neg h]
  refine ⟨_, ?_, rfl⟩
  dsimp only
  split_ifs <;> rfl

theorem record_sizeInv (fid : Nat) (s : RState) (h : sizeInv s) :
    sizeInv (recordAccess fid s).2 := by
  by_cases hc : s.replacerSize < fid
  · unfold recordAccess
    rw [if_pos hc]
    exact h
  · obtain ⟨e2, he, heq⟩ := recordAccess_ok_spec fid s hc
    rw [heq]
    show s.currSize = countEvictable (setFrame fid e2 s.frames)
    rw [setFrame_count_pres s.frames fid e2 he]
    exact h

theorem setEv_sizeInv (fid : Nat) (flag : Bool) (s : RState) (h : sizeInv s) :
    sizeInv (setEvictable fid flag s) := by
  unfold setEvictable
  split
  · exact h
  · next e hl =>
    have hcnt := setFrame_count s.frames fid { e with evictable := flag }
    rw [hl] at hcnt
    have h' : s.currSize = countEvictable s.frames := h
    rcases hev : e.evictable <;> rcases hfl : flag <;>
      simp [hev, hfl] at hcnt <;>
      simp [hev, hfl, sizeInv, lruSize] <;>
      omega

theorem remove_sizeInv (fid : Nat) (s : RState) (h : sizeInv s) :
    sizeInv (removeFrame fid s).2 := by
  unfold removeFrame
  split
  · exact h
  · next e hl =>
    split_ifs with hev
    · have := eraseFrame_count s.frames fid e hl hev
      have h' : s.currSize = countEvictable s.frames := h
      show s.currSize - 1 = countEvictable (eraseFrame fid s.frames)
      omega
    · exact h

theorem evict_sizeInv (s : RState) (p : Option Nat × RState) (h : sizeInv s)
    (he : evict s = Except.ok p) : sizeInv p.2 := by
  unfold evict at he
  split at he
  · injection he with h1
    rw [← h1]
    exact h
  · next f hs =>
    split at he
    · next s1 hrm =>
      injection he with h1
      rw [← h1]
      have h2 := remove_sizeInv f s h
      rw [hrm] at h2
      exact h2
    · simp at he

/-- C7: `Size()` always equals the number of tracked frames whose
evictable flag is true: the invariant holds for a fresh replacer and is
preserved by `RecordAccess`, `SetEvictable`, `Remove` (also across
their error exits, which leave the state unchanged) and by `Evict`. -/
theorem size_matches_evictable_count :
    (∀ n kk, sizeInv (mkReplacer n kk)) ∧
    (∀ fid s, sizeInv s → sizeInv (recordAccess fid s).2) ∧
    (∀ fid flag s, sizeInv s → sizeInv (setEvictable fid flag s)) ∧
    (∀ fid s, sizeInv s → sizeInv (removeFrame fid s).2) ∧
    (∀ s p, sizeInv s → evict s = Except.ok p → sizeInv p.2) :=
  ⟨fun _ _ => rfl, record_sizeInv, setEv_sizeInv, remove_sizeInv, evict_sizeInv⟩

/-- Witness for C7 at a concrete state: marking the tracked frame of
`demoReplacer` evictable preserves the invariant. -/
theorem size_matches_evictable_count_witness :
    sizeInv (setEvictable 0 true demoReplacer) :=
  size_matches_evictable_count.2.2.1 0 true demoReplacer (by decide)

/-- Any id the victim scan returns is stored in the frame map with its
evictable flag set. -/
theorem scan_mem (s : RState) : ∀ (l : List (Nat × FrameEntry)) (acc : Option Nat) (f : Nat),
    (∀ p ∈ l, p ∈ s.frames) →
    (∀ c, acc = some c → ∃ e, (c, e) ∈ s.frames ∧ e.evictable = true) →
    l.foldl (scanStep s) acc = some f →
    ∃ e, (f, e) ∈ s.frames ∧ e.evictable = true := by
  intro l
  induction l with
  | nil =>
    intro acc f _ hacc hf
    rw [List.foldl_nil] at hf
    exact hacc f hf
  | cons p t ih =>
    intro acc f hmem hacc hf
    rw [List.foldl_cons] at hf
    refine ih _ f (fun q hq => hmem q (List.mem_cons_of_mem _ hq)) ?_ hf
    intro c hc
    unfold scanStep at hc
    split_ifs at hc with hev
    · cases acc with
      | none =>
        injection hc with h1
        subst h1
        exact ⟨p.2, hmem p (List.mem_cons_self _ _), hev⟩
      | some cur =>
        dsimp only at hc
        split_ifs at hc with hcmp
        · injection hc with h1
          subst h1
          exact ⟨p.2, hmem p (List.mem_cons_self _ _), hev⟩
        · injection hc with h1
          subst h1
          exact hacc cur rfl
    · exact hacc c hc

/-- An accepted `RecordAccess` keeps `curr_size_`, tracks the frame,
and leaves every frame's evictable flag (with untracked frames read as
`false`) unchanged. -/
theorem recordAccess_flags (fid : Nat) (s : RState) (h : (recordAccess fid s).1 = none) :
    (recordAccess fid s).2.currSize = s.currSize ∧
    (lookupFrame fid (recordAccess fid s).2.frames).isSome = true ∧
    ∀ g, flagOf g (recordAccess fid s).2 = flagOf g s := by
  by_cases hc : s.replacerSize < fid
  · unfold recordAccess at h
    rw [if_pos hc] at h
    simp at h
  · obtain ⟨e2, he, heq⟩ := recordAccess_ok_spec fid s hc
    rw [heq]
    refine ⟨rfl, ?_, ?_⟩
    · dsimp only
      rw [lookup_setFrame_self]
      rfl
    · intro g
      by_cases hg : g = fid
      · subst hg
        unfold flagOf getFrame
        dsimp only
        rw [lookup_setFrame_self]
        exact he
      · unfold flagOf getFrame
        dsimp only
        rw [lookup_setFrame_ne s.frames fid g e2 hg]

/-- C9: an accepted `record_access` never changes `Size()` or any
frame's evictable flag — the entry implicitly created for a new frame
starts non-evictable (`flagOf` reads untracked frames as `false`, and
it is unchanged across the call while the frame becomes tracked) — and
`evict` only ever returns a frame whose flag is `true`, so a frame just
created by `record_access` cannot be evicted before
`set_evictable(fid, true)`. -/
theorem recordAccess_flag_neutral :
    (∀ fid s, (recordAccess fid s).1 = none →
      (recordAccess fid s).2.currSize = s.currSize ∧
      (lookupFrame fid (recordAccess fid s).2.frames).isSome = true ∧
      ∀ g, flagOf g (recordAccess fid s).2 = flagOf g s) ∧
    (∀ s f s2, (s.frames.map Prod.fst).Nodup →
      evict s = Except.ok (some f, s2) → flagOf f s = true) := by
  refine ⟨recordAccess_flags, ?_⟩
  intro s f s2 hnd he
  unfold evict at he
  split at he
  · simp at he
  · next f0 hs =>
    split at he
    · next s1 hrm =>
      injection he with h1
      injection h1 with ha hb
      injection ha with haf
      subst haf
      obtain ⟨e, hmem, hev⟩ :=
        scan_mem s s.frames none f0 (fun q hq => hq) (by intro c hc; cases hc) hs
      unfold flagOf getFrame
      rw [lookupFrame_nodup s.frames f0 e hnd hmem]
      exact hev
    · simp at he

/-- Witness for C9 at a concrete accepted call on `demoReplacer`. -/
theorem recordAccess_flag_neutral_witness :
    (recordAccess 0 demoReplacer).2.currSize = demoReplacer.currSize :=
  (recordAccess_flag_neutral.1 0 demoReplacer rfl).1

/-! ### Claim C3 — the eviction ordering of `Evict` -/

theorem keyLe_refl (kk : Nat) (e : FrameEntry) : keyLe kk e e :=
  Or.inr ⟨rfl, Nat.le_refl _⟩

theorem keyLe_trans (kk : Nat) (e1 e2 e3 : FrameEntry)
    (h1 : keyLe kk e1 e2) (h2 : keyLe kk e2 e3) : keyLe kk e1 e3 := by
  unfold keyLe at h1 h2 ⊢
  rcases h1 with h1 | ⟨h1, h1b⟩ <;> rcases h2 with h2 | ⟨h2, h2b⟩
  · exact Or.inl (Nat.lt_trans h1 h2)
  · exact Or.inl (h2 ▸ h1)
  · exact Or.inl (h1 ▸ h2)
  · exact Or.inr ⟨h1.trans h2, Nat.le_trans h1b h2b⟩

theorem keyLe_of_keyLt (kk : Nat) (e1 e2 : FrameEntry) (h : keyLt kk e1 e2) :
    keyLe kk e1 e2 := by
  rcases h with h | ⟨h1, h2⟩
  · exact Or.inl h
  · exact Or.inr ⟨h1, Nat.le_of_lt h2⟩

theorem not_keyLt (kk : Nat) (e1 e2 : FrameEntry) (h : ¬ keyLt kk e1 e2) :
    keyLe kk e2 e1 := by
  unfold keyLt at h
  unfold keyLe
  by_cases hab : frameClass kk e1 = frameClass kk e2
  · right
    refine ⟨hab.symm, ?_⟩
    by_cases hlt : e1.time.headD 0 < e2.time.headD 0
    · exact absurd (Or.inr ⟨hab, hlt⟩) h
    · omega
  · by_cases hlt : frameClass kk e1 < frameClass kk e2
    · exact absurd (Or.inl hlt) h
    · left
      omega

/-- Over histories bounded by `k`, `CompareFrame` computes exactly the
strict priority order `keyLt`. -/
theorem compareFrame_iff (s : RState) (f1 f2 : Nat)
    (h1 : (getFrame s f1).time.length ≤ s.k) (h2 : (getFrame s f2).time.length ≤ s.k) :
    (compareFrame s f1 f2 = true) ↔ keyLt s.k (getFrame s f1) (getFrame s f2) := by
  unfold compareFrame keyLt frameClass
  by_cases ha : (getFrame s f1).time.length < s.k <;>
    by_cases hb : (getFrame s f2).time.length < s.k
  · rw [if_neg (by omega), if_neg (by omega)]
    simp [ha, hb]
  · rw [if_pos ⟨ha, by omega⟩]
    simp [ha, hb]
  · rw [if_neg (by omega), if_pos ⟨by omega, hb⟩]
    simp [ha, hb]
  · rw [if_neg (by omega), if_neg (by omega)]
    simp [ha, hb]

theorem getFrame_len_le (s : RState) (hk : ∀ p ∈ s.frames, p.2.time.length ≤ s.k)
    (g : Nat) : (getFrame s g).time.length ≤ s.k := by
  unfold getFrame
  cases hl : lookupFrame g s.frames with
  | none => simp
  | some e =>
    have := hk (g, e) (lookupFrame_mem s.frames g e hl)
    simpa using this

/-- The scan returns a frame that is minimal in the `keyLe` order among
the evictable frames of the scanned list (and beats the incoming
accumulator). -/
theorem scan_go (s : RState) (hk : ∀ g, (getFrame s g).time.length ≤ s.k) :
    ∀ (l : List (Nat × FrameEntry)) (acc : Option Nat) (f : Nat),
      (∀ p ∈ l, p ∈ s.frames) →
      l.foldl (scanStep s) acc = some f →
      (∀ c, acc = some c → keyLe s.k (getFrame s f) (getFrame s c)) ∧
      (∀ p ∈ l, p.2.evictable = true → keyLe s.k (getFrame s f) (getFrame s p.1)) := by
  intro l
  induction l with
  | nil =>
    intro acc f _ hf
    rw [List.foldl_nil] at hf
    refine ⟨?_, by simp⟩
    intro c hc
    rw [hf] at hc
    injection hc with h1
    subst h1
    exact keyLe_refl _ _
  | cons p t ih =>
    intro acc f hmem hf
    rw [List.foldl_cons] at hf
    have hmem' : ∀ q ∈ t, q ∈ s.frames := fun q hq => hmem q (List.mem_cons_of_mem _ hq)
    obtain ⟨hA, hT⟩ := ih (scanStep s acc p) f hmem' hf
    constructor
    · intro c hc
      subst hc
      by_cases hev : p.2.evictable = true
      · cases hcmp : compareFrame s p.1 c with
        | true =>
          have h1 := hA p.1 (by simp [scanStep, hev, hcmp])
          have h2 := (compareFrame_iff s p.1 c (hk p.1) (hk c)).mp hcmp
          exact keyLe_trans _ _ _ _ h1 (keyLe_of_keyLt _ _ _ h2)
        | false =>
          exact hA c (by simp [scanStep, hev, hcmp])
      · exact hA c (by simp [scanStep, hev])
    · intro q hq hqe
      rcases List.mem_cons.mp hq with hq | hq
      · subst hq
        cases acc with
        | none =>
          exact hA q.1 (by simp [scanStep, hqe])
        | some cur =>
          cases hcmp : compareFrame s q.1 cur with
          | true =>
            exact hA q.1 (by simp [scanStep, hqe, hcmp])
          | false =>
            have h1 := hA cur (by simp [scanStep, hqe, hcmp])
            have h2 : ¬ keyLt s.k (getFrame s q.1) (getFrame s cur) := by
              intro hlt
              rw [← compareFrame_iff s q.1 cur (hk q.1) (hk cur)] at hlt
              rw [hcmp] at hlt
              cases hlt
            exact keyLe_trans _ _ _ _ h1 (not_keyLt _ _ _ h2)
      · exact hT q hq hqe

theorem scanStep_some (s : RState) (c : Nat) (p : Nat × FrameEntry) :
    ∃ f2, scanStep s (some c) p = some f2 := by
  unfold scanStep
  dsimp only
  split_ifs
  · exact ⟨p.1, rfl⟩
  · exact ⟨c, rfl⟩
  · exact ⟨c, rfl⟩

theorem scan_none (s : RState) : ∀ (l : List (Nat × FrameEntry)) (acc : Option Nat),
    l.foldl (scanStep s) acc = none → acc = none ∧ ∀ p ∈ l, p.2.evictable = false := by
  intro l
  induction l with
  | nil =>
    intro acc h
    rw [List.foldl_nil] at h
    exact ⟨h, by simp⟩
  | cons p t ih =>
    intro acc h
    rw [List.foldl_cons] at h
    obtain ⟨hacc', hall⟩ := ih _ h
    have hpair : acc = none ∧ p.2.evictable = false := by
      unfold scanStep at hacc'
      split_ifs at hacc' with hev
      · cases acc with
        | none => cases hacc'
        | some cur =>
          dsimp only at hacc'
          split_ifs at hacc' <;> cases hacc'
      · refine ⟨hacc', ?_⟩
        revert hev
        cases p.2.evictable <;> simp
    refine ⟨hpair.1, ?_⟩
    intro q hq
    rcases List.mem_cons.mp hq with hq | hq
    · subst hq
      exact hpair.2
    · exact hall q hq

theorem scan_none_of_all (s : RState) : ∀ l : List (Nat × FrameEntry),
    (∀ p ∈ l, p.2.evictable = false) → l.foldl (scanStep s) none = none := by
  intro l
  induction l with
  | nil => intro _; rfl
  | cons p t ih =>
    intro hall
    rw [List.foldl_cons]
    have hstep : scanStep s none p = none := by
      simp [scanStep, hall p (List.mem_cons_self _ _)]
    rw [hstep]
    exact ih fun q hq => hall q (List.mem_cons_of_mem _ hq)

/-- Transfer of the abstract `keyLe` order to the claim's wording. -/
theorem keyLe_elim (kk : Nat) (a b : FrameEntry) (hab : keyLe kk a b) :
    (b.time.length < kk → a.time.length < kk) ∧
    (a.time.length < kk → b.time.length < kk → a.time.headD 0 ≤ b.time.headD 0) := by
  unfold keyLe frameClass at hab
  constructor
  · intro hb
    rw [if_pos hb] at hab
    by_cases ha : a.time.length < kk
    · exact ha
    · rw [if_neg ha] at hab
      rcases hab with h | ⟨h, _⟩ <;> omega
  · intro ha hb
    rw [if_pos ha, if_pos hb] at hab
    rcases hab with h | ⟨_, h⟩
    · omega
    · exact h

/-- C3: `Evict` implements the LRU-K policy.  On a frame map with
unique ids and histories bounded by `k`: it returns `none` exactly when
no tracked frame is evictable; and when it returns a frame, that frame
is tracked and evictable, no evictable frame with fewer than `k`
accesses is passed over in favour of one with `k` accesses (if any
evictable frame has an infinite backward k-distance, so does the
victim), and among infinite-distance frames the victim has the smallest
oldest retained timestamp.  (For frames with `k` accesses the same
front comparison picks the smallest k-th-most-recent timestamp, i.e.
the largest backward k-distance.) -/
theorem evict_kdistance_policy (s : RState)
    (hnd : (s.frames.map Prod.fst).Nodup)
    (hk : ∀ p ∈ s.frames, p.2.time.length ≤ s.k) :
    (evict s = Except.ok (none, s) ↔ ∀ p ∈ s.frames, p.2.evictable = false) ∧
    (∀ f s2, evict s = Except.ok (some f, s2) →
      ∃ e, (f, e) ∈ s.frames ∧ e.evictable = true ∧
        ∀ g eg, (g, eg) ∈ s.frames → eg.evictable = true →
          ((eg.time.length < s.k → e.time.length < s.k) ∧
           (e.time.length < s.k → eg.time.length < s.k →
             e.time.headD 0 ≤ eg.time.headD 0))) := by
  have hkg : ∀ g, (getFrame s g).time.length ≤ s.k := getFrame_len_le s hk
  constructor
  · constructor
    · intro he
      unfold evict at he
      split at he
      · next hs => exact (scan_none s s.frames none hs).2
      · next f0 hs =>
        split at he
        · next s1 hrm =>
          injection he with h1
          injection h1 with ha hb
          cases ha
        · cases he
    · intro hall
      unfold evict
      rw [show scanVictim s = none from scan_none_of_all s s.frames hall]
  · intro f s2 he
    unfold evict at he
    split at he
    · injection he with h1
      injection h1 with ha hb
      cases ha
    · next f0 hs =>
      split at he
      · next s1 hrm =>
        injection he with h1
        injection h1 with ha hb
        injection ha with haf
        subst haf
        obtain ⟨e, hmem, hev⟩ :=
          scan_mem s s.frames none f0 (fun q hq => hq) (by intro c hc; cases hc) hs
        obtain ⟨_, hT⟩ := scan_go s hkg s.frames none f0 (fun q hq => hq) hs
        have hef : getFrame s f0 = e := by
          unfold getFrame
          rw [lookupFrame_nodup s.frames f0 e hnd hmem]
          rfl
        refine ⟨e, hmem, hev, ?_⟩
        intro g eg hmemg hevg
        have hgg : getFrame s g = eg := by
          unfold getFrame
          rw [lookupFrame_nodup s.frames g eg hnd hmemg]
          rfl
        have hle := hT (g, eg) hmemg hevg
        rw [hef, hgg] at hle
        exact keyLe_elim s.k e eg hle
      · cases he

/-- Witness for C3 at a concrete state with no evictable frame:
`evict` returns `none` and leaves the state unchanged. -/
theorem evict_kdistance_policy_witness :
    evict demoReplacer = Except.ok (none, demoReplacer) :=
  (evict_kdistance_policy demoReplacer (by decide) (by decide)).1.mpr (by decide)
